import Mathlib

/-!
Shallow embedding of the rutilelib layout-algebra core (src/tuple.rs,
src/shape.rs, src/layout.rs, src/layout_algebra.rs, src/layout_iter.rs,
src/tiled_tensor.rs, src/gemm.rs).  Rust `usize` values are modelled as `Nat`
(no overflow is reachable in the claims considered), and fallible Rust code
(`panic!`, failed `assert!`, out-of-bounds indexing, division by zero) is
modelled with `Option`, `none` standing for a panic.
-/

namespace Rutile

/-- Rust `Tuple` from src/tuple.rs: a leaf of integers or a branch of tuples. -/
inductive Tuple where
  | Int (v : List Nat)
  | Tup (v : List Tuple)
deriving Repr

mutual

/-- Rust `Tuple::flatten` (src/tuple.rs): pre-order leaf list. -/
def Tuple.flatten : Tuple → List Nat
  | .Int v => v
  | .Tup vs => flattenList vs

/-- Flattening of a list of child tuples (the `flat_map` in `Tuple::flatten`). -/
def flattenList : List Tuple → List Nat
  | [] => []
  | t :: ts => t.flatten ++ flattenList ts

end

mutual

/-- Rust `Tuple::size` (src/tuple.rs): product of all leaf values. -/
def Tuple.size : Tuple → Nat
  | .Int v => v.prod
  | .Tup vs => sizeList vs

/-- Product of sizes of a list of child tuples (the `product` in `Tuple::size`). -/
def sizeList : List Tuple → Nat
  | [] => 1
  | t :: ts => t.size * sizeList ts

end

/-- Rust `Tuple::flat_len` (src/tuple.rs). -/
def Tuple.flat_len (t : Tuple) : Nat := t.flatten.length

/-- Rust `Tuple::flat_at` (src/tuple.rs); out-of-range indexing panics in Rust,
here it is only used through `lower_matrix`, which guards the length. -/
def Tuple.flat_at (t : Tuple) (i : Nat) : Nat := t.flatten.getD i 0

mutual

/-- Rust `Tuple::dot` (src/tuple.rs): hierarchical dot product.  Leaf/branch
mismatch panics (`none`); `zip` silently truncates to the shorter operand. -/
def Tuple.dot : Tuple → Tuple → Option Nat
  | .Int a, .Int b => some ((List.zipWith (· * ·) a b).sum)
  | .Tup a, .Tup b => dotList a b
  | _, _ => none

/-- Summed recursive dots over zipped children (the branch case of `dot`). -/
def dotList : List Tuple → List Tuple → Option Nat
  | [], _ => some 0
  | _, [] => some 0
  | x :: xs, y :: ys => do pure ((← x.dot y) + (← dotList xs ys))

end

mutual

/-- Structural congruence of two tuple trees: same branching shape at every
depth and equal leaf lengths.  Specification-side predicate used to state the
congruence preconditions of the spec. -/
def congrB : Tuple → Tuple → Bool
  | .Int a, .Int b => a.length == b.length
  | .Tup a, .Tup b => congrListB a b
  | _, _ => false

/-- Congruence of two lists of children, position by position. -/
def congrListB : List Tuple → List Tuple → Bool
  | [], [] => true
  | x :: xs, y :: ys => congrB x y && congrListB xs ys
  | _, _ => false

end

/-- The stride accumulator loop shared by the leaf cases of
`row_major_stride` (run on the reversed extent list) and `col_major_stride`
(run in order) in src/layout.rs: emits `acc`, then multiplies `acc` by the
extent just consumed. -/
def strideScan : List Nat → Nat → List Nat
  | [], _ => []
  | s :: rest, acc => acc :: strideScan rest (acc * s)

/-- Leaf case of `row_major_stride` (src/layout.rs): strides decrease
right-to-left as cumulative products, innermost stride 1. -/
def rowMajorFlat (v : List Nat) : List Nat := (strideScan v.reverse 1).reverse

/-- Leaf case of `col_major_stride` (src/layout.rs). -/
def colMajorFlat (v : List Nat) : List Nat := strideScan v 1

mutual

/-- Rust `scale_stride` (src/layout.rs): multiply every leaf by `factor`. -/
def scale_stride : Tuple → Nat → Tuple
  | .Int v, f => .Int (v.map (· * f))
  | .Tup v, f => .Tup (scaleList v f)

/-- Rust `scale_stride` mapped over a branch's children. -/
def scaleList : List Tuple → Nat → List Tuple
  | [], _ => []
  | t :: ts, f => scale_stride t f :: scaleList ts f

end

mutual

/-- Rust `row_major_stride` (src/layout.rs).  For a branch, each child's stride
tree is scaled by the running product of the sizes of the children to its
right (the Rust loop runs right-to-left accumulating `acc`). -/
def row_major_stride : Tuple → Tuple
  | .Int sizes => .Int (rowMajorFlat sizes)
  | .Tup v => .Tup (rowMajorStrideList v)

/-- Branch case of `row_major_stride`: the child at the head is scaled by the
product of the sizes of all later children. -/
def rowMajorStrideList : List Tuple → List Tuple
  | [] => []
  | s :: rest => scale_stride (row_major_stride s) (sizeList rest) :: rowMajorStrideList rest

end

mutual

/-- Rust `col_major_stride` (src/layout.rs): mirror image of `row_major_stride`,
the Rust loop runs left-to-right accumulating `acc`. -/
def col_major_stride : Tuple → Tuple
  | .Int sizes => .Int (colMajorFlat sizes)
  | .Tup v => .Tup (colMajorStrideList v 1)

/-- Branch case of `col_major_stride` with the running product `acc`. -/
def colMajorStrideList : List Tuple → Nat → List Tuple
  | [], _ => []
  | s :: rest, acc => scale_stride (col_major_stride s) acc :: colMajorStrideList rest (acc * s.size)

end

/-- Rust `Shape` (src/shape.rs): a `Tuple` tagged as extents. -/
structure Shape where
  dims : Tuple

/-- Rust `Shape::size`. -/
def Shape.size (s : Shape) : Nat := s.dims.size

/-- Rust `Shape::flat_len`. -/
def Shape.flat_len (s : Shape) : Nat := s.dims.flat_len

/-- Rust `Layout` (src/layout.rs): shape, stride and the contiguity flag computed
at construction. -/
structure Layout where
  shape : Shape
  stride : Tuple
  contig : Bool

/-- The loop body of `is_layout_contig` (src/layout.rs), walking the
reversed flattened strides together with the reversed flattened extents.
The Rust loop indexes `flat_shape_vec[flat_shape_vec.len()-1-dim]` after a
successful stride check; when the stride list is longer than the extent
list that index is out of bounds (`none`). -/
def contigGo : List Nat → List Nat → Nat → Option Bool
  | [], _, _ => some true
  | s :: ss, shpRev, expected =>
    if s ≠ expected then some false
    else
      match shpRev with
      | q :: qs => contigGo ss qs (expected * q)
      | [] => none

/-- Rust `is_layout_contig` (src/layout.rs). -/
def is_layout_contig (shape : Shape) (stride : Tuple) : Option Bool :=
  contigGo stride.flatten.reverse shape.dims.flatten.reverse 1

/-- Rust `Layout::new` (src/layout.rs): derives the stride tree from the policy
and sets `contig` to `true` unconditionally. -/
def Layout.new (makeStride : Shape → Tuple) (shape : Shape) : Layout :=
  { shape := shape, stride := makeStride shape, contig := true }

/-- Rust `Layout::row_major`. -/
def Layout.row_major (s : Shape) : Layout :=
  Layout.new (fun sh => row_major_stride sh.dims) s

/-- Rust `Layout::col_major`. -/
def Layout.col_major (s : Shape) : Layout :=
  Layout.new (fun sh => col_major_stride sh.dims) s

/-- Rust `Layout::with_shape_stride` (src/layout.rs): computes the contiguity
flag with `is_layout_contig`. -/
def Layout.with_shape_stride (shape : Shape) (stride : Tuple) : Option Layout :=
  (is_layout_contig shape stride).map
    (fun c => { shape := shape, stride := stride, contig := c })

/-- Rust `Layout::is_contiguous`. -/
def Layout.is_contiguous (l : Layout) : Bool := l.contig

/-- Rust `Layout::size`. -/
def Layout.size (l : Layout) : Nat := l.shape.size

/-- Rust `Layout::crd2idx` (src/layout.rs): `crd.dot(stride)`. -/
def Layout.crd2idx (l : Layout) (crd : Tuple) : Option Nat := crd.dot l.stride

mutual

/-- The recursive worker of `Layout::idx2crd` (src/layout.rs), threading the
remaining index through the tree. -/
def idx2crdGo : Nat → Tuple → Tuple → Option (Tuple × Nat)
  | idx, .Int sizes, .Int strides =>
      (idx2crdLeaf idx sizes strides).map (fun p => (Tuple.Int p.1, p.2))
  | idx, .Tup ss, .Tup sts =>
      (idx2crdChildren idx ss sts).map (fun p => (Tuple.Tup p.1, p.2))
  | _, _, _ => none

/-- Leaf case of `idx2crd`: for each `(extent, stride)` pair divide, assert
the quotient is in range (`assert!(v < *sz)`), subtract and continue.
Division by a zero stride panics in Rust (`none` here). -/
def idx2crdLeaf : Nat → List Nat → List Nat → Option (List Nat × Nat)
  | idx, [], _ => some ([], idx)
  | idx, _ :: _, [] => some ([], idx)
  | idx, sz :: szs, st :: sts =>
      if st = 0 then none
      else
        let v := idx / st
        if v < sz then (idx2crdLeaf (idx - v * st) szs sts).map (fun p => (v :: p.1, p.2))
        else none

/-- Branch case of `idx2crd`: child coordinates in order, the index state
flowing left to right. -/
def idx2crdChildren : Nat → List Tuple → List Tuple → Option (List Tuple × Nat)
  | idx, [], _ => some ([], idx)
  | idx, _ :: _, [] => some ([], idx)
  | idx, s :: ss, t :: ts => do
      let p ← idx2crdGo idx s t
      let q ← idx2crdChildren p.2 ss ts
      pure (p.1 :: q.1, q.2)

end

/-- Rust `Layout::idx2crd` (src/layout.rs); the final remaining index is dropped. -/
def Layout.idx2crd (l : Layout) (idx : Nat) : Option Tuple :=
  (idx2crdGo idx l.shape.dims l.stride).map Prod.fst

/-- Rust `Layout::cosize` (src/layout.rs): at a leaf, sum of `(extent-1)*stride`
plus one; at a branch, recurse into the *last* child of each tree
(`.last().expect(..)`, panic on an empty branch).  Rust `usize` subtraction
`s - 1` would panic for a zero extent in debug builds; `Nat` truncated
subtraction is used here, the claims considered only involve extents ≥ 1. -/
def cosizeGo : Tuple → Tuple → Option Nat
  | .Int sizes, .Int strides =>
      some ((List.zipWith (fun s st => (s - 1) * st) sizes strides).sum + 1)
  | .Tup ss, .Tup sts =>
      match h : ss.getLast?, sts.getLast? with
      | some a, some b => cosizeGo a b
      | _, _ => none
  | _, _ => none
termination_by s _ => sizeOf s
decreasing_by
  simp_wf
  have := List.sizeOf_lt_of_mem (List.mem_of_mem_getLast? h)
  omega

/-- Rust `Layout::cosize`. -/
def Layout.cosize (l : Layout) : Option Nat := cosizeGo l.shape.dims l.stride

/-! ### Layout algebra (src/layout_algebra.rs) -/

/-- The leaf quotients `l_i / t_i` of `zipped_divide` over the truncating
`zip`; Rust division by a zero tile extent panics (`none`). -/
def quotList : List Nat → List Nat → Option (List Nat)
  | [], _ => some []
  | _ :: _, [] => some []
  | l :: ls, t :: ts =>
      if t = 0 then none
      else (quotList ls ts).map (fun q => l / t :: q)

mutual

/-- The recursive worker of `zipped_divide` (src/layout_algebra.rs):
returns the verbatim tile tree and the integer-quotient rest tree; any
leaf/branch mismatch panics. -/
def zippedGo : Tuple → Tuple → Option (Tuple × Tuple)
  | .Int ldims, .Int tdims =>
      (quotList ldims tdims).map (fun q => (Tuple.Int tdims, Tuple.Int q))
  | .Tup lv, .Tup tv =>
      (zippedList lv tv).map (fun p => (Tuple.Tup p.1, Tuple.Tup p.2))
  | _, _ => none

/-- Rust `zipped_divide` worker over zipped children lists. -/
def zippedList : List Tuple → List Tuple → Option (List Tuple × List Tuple)
  | [], _ => some ([], [])
  | _ :: _, [] => some ([], [])
  | l :: ls, t :: ts => do
      let p ← zippedGo l t
      let q ← zippedList ls ts
      pure (p.1 :: q.1, p.2 :: q.2)

end

/-- Rust `zipped_divide` (src/layout_algebra.rs): shape `((Tile..),(Rest..))`,
restriped row-major. -/
def zipped_divide (layout tiler : Layout) : Option Layout :=
  (zippedGo layout.shape.dims tiler.shape.dims).map
    (fun p => Layout.new (fun sh => row_major_stride sh.dims) ⟨.Tup [p.1, p.2]⟩)

/-- Rust `tiled_divide` (src/layout_algebra.rs): keeps the tile tree as the first
mode and flattens the rest tree by one level. -/
def tiled_divide (layout tiler : Layout) : Option Layout :=
  (zipped_divide layout tiler).bind fun z =>
    match z.shape.dims with
    | .Tup (tile :: rest :: _) =>
        some (Layout.new (fun sh => row_major_stride sh.dims)
          ⟨.Tup (tile :: (match rest with
                          | .Tup r => r
                          | .Int r => [Tuple.Int r]))⟩)
    | _ => none

/-- Rust `flat_divide` (src/layout_algebra.rs): fully flattens `tiled_divide`
into one leaf sequence. -/
def flat_divide (layout tiler : Layout) : Option Layout :=
  (tiled_divide layout tiler).map
    (fun td => Layout.new (fun sh => row_major_stride sh.dims) ⟨.Int td.shape.dims.flatten⟩)

/-! ### Grid-only iterator (src/layout_iter.rs) -/

/-- Rust `LayoutIterator` (src/layout_iter.rs). -/
structure LayoutIterator where
  shape : List Nat
  current : List Nat
  done : Bool

/-- Rust `LayoutIterator::new`. -/
def LayoutIterator.new (shape : List Nat) : LayoutIterator :=
  { shape := shape, current := List.replicate shape.length 0, done := false }

/-- The ripple increment of `LayoutIterator::next`, acting on the reversed
current/shape lists (the Rust loop runs over dimensions right to left):
add 1, reset and carry on overflow; the returned flag is `done`, set when
dimension 0 wraps.  In every reachable state the two lists have equal
length, so the final catch-all is never exercised. -/
def layoutAdvance : List Nat → List Nat → List Nat × Bool
  | [c], [s] => if c + 1 < s then ([c + 1], false) else ([0], true)
  | c :: cs, s :: ss =>
      if c + 1 < s then ((c + 1) :: cs, false)
      else
        let p := layoutAdvance cs ss
        (0 :: p.1, p.2)
  | _, _ => ([], false)

/-- Rust `LayoutIterator::next` (src/layout_iter.rs). -/
def LayoutIterator.next (it : LayoutIterator) : Option (List Nat × LayoutIterator) :=
  if it.done then none
  else
    let p := layoutAdvance it.current.reverse it.shape.reverse
    some (it.current, { shape := it.shape, current := p.1.reverse, done := p.2 })

/-- Collect the elements the iterator yields; `fuel` bounds the number of
`next` calls, every yielded element consumes one unit. -/
def LayoutIterator.run : LayoutIterator → Nat → List (List Nat)
  | _, 0 => []
  | it, fuel + 1 =>
      match it.next with
      | none => []
      | some (out, it') => out :: it'.run fuel

/-- Rust `Layout::tile_iter` (src/layout.rs): seeds a `LayoutIterator` with the
first `tiler.flat_len` dimensions of `flat_divide`. -/
def Layout.tile_iter (l tiler : Layout) : Option LayoutIterator :=
  (flat_divide l tiler).bind fun flat =>
    match flat.shape.dims with
    | .Int v => some (LayoutIterator.new (v.take tiler.shape.flat_len))
    | _ => none

/-- Rust `Layout::rest_iter` (src/layout.rs): seeds a `LayoutIterator` with the
dimensions of `flat_divide` after the first `tiler.flat_len`. -/
def Layout.rest_iter (l tiler : Layout) : Option LayoutIterator :=
  (flat_divide l tiler).bind fun flat =>
    match flat.shape.dims with
    | .Int v => some (LayoutIterator.new (v.drop tiler.shape.flat_len))
    | _ => none

/-! ### Ragged tile-descriptor iterator (src/tiled_tensor.rs) -/

/-- Rust `Tile` (src/tiled_tensor.rs): start coordinates and per-dimension
lengths. -/
structure Tile where
  start : List Nat
  len : List Nat
deriving DecidableEq, Repr

/-- Rust `TileIter` (src/tiled_tensor.rs). -/
structure TileIter where
  tile_shape : List Nat
  full_shape : List Nat
  current : List Nat
  done : Bool

/-- Rust `TileIter::new`. -/
def TileIter.new (tile_shape full_shape : List Nat) : TileIter :=
  { tile_shape := tile_shape, full_shape := full_shape
    current := List.replicate tile_shape.length 0, done := false }

/-- The per-dimension clipped lengths of `TileIter::next`:
`min(tile_extent, full_extent - start)`.  The Rust loop runs over
`start.len()` entries; all reachable states have equal-length lists. -/
def clipLens : List Nat → List Nat → List Nat → List Nat
  | t :: ts, f :: fs, s :: ss => min t (f - s) :: clipLens ts fs ss
  | _, _, _ => []

/-- The counter advance of `TileIter::next`, on the reversed current, tile
and full lists: add the tile extent, reset and carry on overflow; the flag
is `done`, set when dimension 0 wraps. -/
def tileAdvance : List Nat → List Nat → List Nat → List Nat × Bool
  | [c], [t], [f] => if c + t < f then ([c + t], false) else ([0], true)
  | c :: cs, t :: ts, f :: fs =>
      if c + t < f then ((c + t) :: cs, false)
      else
        let p := tileAdvance cs ts fs
        (0 :: p.1, p.2)
  | _, _, _ => ([], false)

/-- Rust `TileIter::next` (src/tiled_tensor.rs): emit the tile at `current` with
clipped lengths, then advance the counter by the tile extents. -/
def TileIter.next (it : TileIter) : Option (Tile × TileIter) :=
  if it.done then none
  else
    let start := it.current
    let len := clipLens it.tile_shape it.full_shape start
    let p := tileAdvance it.current.reverse it.tile_shape.reverse it.full_shape.reverse
    some ({ start := start, len := len },
          { tile_shape := it.tile_shape, full_shape := it.full_shape
            current := p.1.reverse, done := p.2 })

/-- Collect the tiles the iterator yields, with `fuel` bounding the number
of `next` calls. -/
def TileIter.run : TileIter → Nat → List Tile
  | _, 0 => []
  | it, fuel + 1 =>
      match it.next with
      | none => []
      | some (t, it') => t :: it'.run fuel

/-- Specification-side: membership of the cell `(x, y)` in the 2-D box of a
tile, `[start0, start0+len0) × [start1, start1+len1)`. -/
def Tile.mem2 (t : Tile) (x y : Nat) : Bool :=
  decide (t.start.getD 0 0 ≤ x) && decide (x < t.start.getD 0 0 + t.len.getD 0 0) &&
  decide (t.start.getD 1 0 ≤ y) && decide (y < t.start.getD 1 0 + t.len.getD 1 0)

/-- Specification-side: the number of tile rows along one dimension of
extent `e ≥ 1` with tile extent `t ≥ 1`, i.e. `⌈e/t⌉`. -/
def gridDim (e t : Nat) : Nat := (e - 1) / t + 1

/-- Specification-side: the tile the ragged iterator emits at grid position
`(a, b)` for tile shape `(tm, tn)` over full shape `(M, N)`. -/
def tileAt (tm tn M N a b : Nat) : Tile :=
  { start := [tm * a, tn * b]
    len := [min tm (M - tm * a), min tn (N - tn * b)] }

/-! ### GEMM lowering (src/gemm.rs) -/

/-- Rust `BlasTranspose` (src/blas.rs). -/
inductive BlasTranspose where
  | NoTrans
  | Trans
deriving DecidableEq, Repr

/-- Rust `lower_matrix` (src/gemm.rs): asserts the layout is rank 2 in flattened
form, then picks (leading dimension, transpose) from whichever stride is 1;
any other pattern panics (`none`). -/
def lower_matrix (layout : Layout) : Option (Nat × BlasTranspose) :=
  if layout.shape.flat_len = 2 then
    match layout.stride.flatten with
    | s0 :: s1 :: _ =>
        if s1 = 1 then some (s0, BlasTranspose.NoTrans)
        else if s0 = 1 then some (s1, BlasTranspose.Trans)
        else none
    | _ => none
  else none

end Rutile


namespace Rutile

/-! ## Claim theorems -/

/-- C10: every layout built through `Layout::new` (hence `row_major` and
`col_major`) has its contiguity flag set to `true` unconditionally, for every
shape — even for a column-major layout such as 2×3 whose stride pattern
`(1,2)` fails the dense row-major check — while the innermost-to-outermost
verification (`is_layout_contig`) runs only inside `with_shape_stride`. -/
theorem C10_new_contig_unconditional :
    (∀ (mk : Shape → Tuple) (s : Shape), (Layout.new mk s).is_contiguous = true) ∧
    (∀ s : Shape, (Layout.row_major s).is_contiguous = true) ∧
    (∀ s : Shape, (Layout.col_major s).is_contiguous = true) ∧
    ((Layout.col_major ⟨.Int [2, 3]⟩).is_contiguous = true ∧
      is_layout_contig ⟨.Int [2, 3]⟩ (Layout.col_major ⟨.Int [2, 3]⟩).stride = some false) ∧
    (∀ (s : Shape) (st : Tuple),
      Layout.with_shape_stride s st
        = (is_layout_contig s st).map (fun c => { shape := s, stride := st, contig := c })) :=
  ⟨fun _ _ => rfl, fun _ => rfl, fun _ => rfl, ⟨rfl, rfl⟩, fun _ _ => rfl⟩

/-- C9: the GEMM lowering of a flattened-rank-2 layout with flattened strides
`(s0, s1)`: inner stride 1 gives `(s0, NoTrans)`, otherwise outer stride 1
gives `(s1, Trans)`, otherwise it fails with no result. -/
theorem C9_lower_matrix (l : Layout) (s0 s1 : Nat)
    (hlen : l.shape.flat_len = 2) (hstr : l.stride.flatten = [s0, s1]) :
    (s1 = 1 → lower_matrix l = some (s0, BlasTranspose.NoTrans)) ∧
    (s1 ≠ 1 → s0 = 1 → lower_matrix l = some (s1, BlasTranspose.Trans)) ∧
    (s0 ≠ 1 → s1 ≠ 1 → lower_matrix l = none) := by
  unfold lower_matrix
  rw [hlen, hstr]
  refine ⟨fun h1 => ?_, fun h1 h0 => ?_, fun h0 h1 => ?_⟩ <;> simp [h1, *]

/-- C9 witness: a dense row-major 2×3 layout has flattened strides `(3,1)`
and lowers to leading dimension 3 with no transpose. -/
theorem C9_lower_matrix_witness :
    (Layout.row_major ⟨.Int [2, 3]⟩).shape.flat_len = 2 ∧
    (Layout.row_major ⟨.Int [2, 3]⟩).stride.flatten = [3, 1] ∧
    lower_matrix (Layout.row_major ⟨.Int [2, 3]⟩) = some (3, BlasTranspose.NoTrans) :=
  ⟨rfl, rfl, (C9_lower_matrix (Layout.row_major ⟨.Int [2, 3]⟩) 3 1 rfl rfl).1 rfl⟩

/-- C4 counterexample: the two leaves `(2,3)` and `(5)` are not structurally
congruent (different lengths), yet `dot` does not fail — it returns the
truncated dot product `2*5 = 10`. -/
theorem C4_counterexample :
    congrB (.Int [2, 3]) (.Int [5]) = false ∧
    Tuple.dot (.Int [2, 3]) (.Int [5]) = some 10 :=
  ⟨rfl, rfl⟩

/-- C4 amended: only a leaf paired with a branch is a fatal mismatch in
`dot`; two leaves always produce the zip-truncated dot product, whatever
their lengths (and branch arity mismatches likewise truncate). -/
theorem C4_dot_mismatch :
    (∀ (v : List Nat) (w : List Tuple), Tuple.dot (.Int v) (.Tup w) = none) ∧
    (∀ (v : List Nat) (w : List Tuple), Tuple.dot (.Tup w) (.Int v) = none) ∧
    (∀ a b : List Nat, Tuple.dot (.Int a) (.Int b) = some ((List.zipWith (· * ·) a b).sum)) :=
  ⟨fun _ _ => rfl, fun v w => by cases w <;> rfl, fun _ _ => rfl⟩

/-- C3: on the 8×6 row-major layout with tiler `(3,2)`, `tile_iter` seeds the
odometer with the tile extents `[3,2]` (not the quotient grid `[2,3]`) and
yields the raw counter values, not the claimed tile start coordinates
`(0,0),(0,2),(0,4),(3,0),(3,2),(3,4)` of the repository's own test. -/
theorem C3_tile_iter_diverges :
    ((Layout.row_major ⟨.Int [8, 6]⟩).tile_iter (Layout.row_major ⟨.Int [3, 2]⟩)).map
      (fun it => it.shape) = some [3, 2] ∧
    ((Layout.row_major ⟨.Int [8, 6]⟩).tile_iter (Layout.row_major ⟨.Int [3, 2]⟩)).map
      (fun it => it.run 10)
      = some [[0, 0], [0, 1], [1, 0], [1, 1], [2, 0], [2, 1]] ∧
    [[0, 0], [0, 1], [1, 0], [1, 1], [2, 0], [2, 1]]
      ≠ [[0, 0], [0, 2], [0, 4], [3, 0], [3, 2], [3, 4]] :=
  ⟨rfl, rfl, by decide⟩

/-- C7: on the 8×6 row-major layout with tiler `(3,2)`, `rest_iter` seeds the
odometer with the quotient dims `[2,3]` and yields all six counter values
starting at `(0,0)` — not the single remainder start coordinate `(6,0)`
claimed by the spec and by the repository's own test. -/
theorem C7_rest_iter_diverges :
    ((Layout.row_major ⟨.Int [8, 6]⟩).rest_iter (Layout.row_major ⟨.Int [3, 2]⟩)).map
      (fun it => it.run 10)
      = some [[0, 0], [0, 1], [0, 2], [1, 0], [1, 1], [1, 2]] ∧
    [[0, 0], [0, 1], [0, 2], [1, 0], [1, 1], [1, 2]] ≠ [[6, 0]] :=
  ⟨rfl, by decide⟩

/-- C6: `cosize` is not an upper bound of the addressable range as soon as
the shape branches: for the row-major layout over the branch shape
`((2),(3))` (strides `((3),(1))`), `cosize` resolves to the last child only
and returns 3, while the in-range coordinate `(1,2)` maps to index 5. -/
theorem C6_cosize_counterexample :
    (Layout.row_major ⟨.Tup [.Int [2], .Int [3]]⟩).stride = .Tup [.Int [3], .Int [1]] ∧
    congrB (.Tup [.Int [1], .Int [2]]) (.Tup [.Int [2], .Int [3]]) = true ∧
    (Layout.row_major ⟨.Tup [.Int [2], .Int [3]]⟩).cosize = some 3 ∧
    (Layout.row_major ⟨.Tup [.Int [2], .Int [3]]⟩).crd2idx (.Tup [.Int [1], .Int [2]])
      = some 5 ∧
    ¬ (5 : Nat) < 3 := by
  refine ⟨rfl, rfl, ?_, rfl, by omega⟩
  show cosizeGo (.Tup [.Int [2], .Int [3]]) (.Tup [.Int [3], .Int [1]]) = some 3
  simp [cosizeGo, List.getLast?]

/-- C8 counterexample: the sub-view shape `(2,4)` of a 4×4 row-major parent
(inherited stride tree `(4,1)`, outer stride 4 ≠ 1, first extent strictly
smaller) still reports `is_contiguous() == true`: shrinking only the
outermost extent keeps every stride equal to the running product of inner
extents. -/
theorem C8_counterexample :
    row_major_stride (.Int [4, 4]) = .Int [4, 1] ∧
    (2 : Nat) < 4 ∧
    (Layout.with_shape_stride ⟨.Int [2, 4]⟩ (row_major_stride (.Int [4, 4]))).map
      Layout.is_contiguous = some true :=
  ⟨rfl, by omega, rfl⟩

/-! ### Supporting lemmas for the divide operations -/

theorem flatten_Tup (vs : List Tuple) : (Tuple.Tup vs).flatten = flattenList vs := rfl

theorem flattenList_cons (t : Tuple) (ts : List Tuple) :
    flattenList (t :: ts) = t.flatten ++ flattenList ts := rfl

mutual

theorem congrB_flatten_length : ∀ a b : Tuple, congrB a b = true →
    a.flatten.length = b.flatten.length
  | .Int v, .Int w, h => by
      simpa [congrB, Tuple.flatten] using h
  | .Tup v, .Tup w, h => congrListB_flatten_length v w (by simpa [congrB] using h)
  | .Int _, .Tup _, h => by simp [congrB] at h
  | .Tup _, .Int _, h => by simp [congrB] at h

theorem congrListB_flatten_length : ∀ a b : List Tuple, congrListB a b = true →
    (flattenList a).length = (flattenList b).length
  | [], [], _ => rfl
  | x :: xs, y :: ys, h => by
      have h' : congrB x y = true ∧ congrListB xs ys = true := by
        simpa [congrListB, Bool.and_eq_true] using h
      simp [flattenList_cons, congrB_flatten_length x y h'.1,
        congrListB_flatten_length xs ys h'.2]
  | [], _ :: _, h => by simp [congrListB] at h
  | _ :: _, [], h => by simp [congrListB] at h

end

theorem quotList_eq (l t : List Nat) (hpos : ∀ x ∈ t, 0 < x) :
    quotList l t = some (List.zipWith (· / ·) l t) := by
  induction l generalizing t with
  | nil => cases t <;> rfl
  | cons x xs ih =>
      cases t with
      | nil => rfl
      | cons y ys =>
          have hy : y ≠ 0 := by have := hpos y (by simp); omega
          simp [quotList, hy, ih ys (fun x hx => hpos x (by simp [hx]))]

mutual

/-- Rust `zipped_divide`'s worker on congruent trees with positive tile extents:
the tile tree is returned verbatim and the rest tree flattens to the
pointwise integer quotients. -/
theorem zippedGo_eq : ∀ L T : Tuple, congrB L T = true →
    (∀ x ∈ T.flatten, 0 < x) →
    ∃ Q : Tuple, zippedGo L T = some (T, Q) ∧
      Q.flatten = List.zipWith (· / ·) L.flatten T.flatten
  | .Int l, .Int t, _, hpos => by
      refine ⟨.Int (List.zipWith (· / ·) l t), ?_, rfl⟩
      simp [zippedGo, quotList_eq l t (by simpa [Tuple.flatten] using hpos)]
  | .Tup ls, .Tup ts, hc, hpos => by
      obtain ⟨Qs, hz, hQ⟩ := zippedList_eq ls ts (by simpa [congrB] using hc)
        (by simpa [flatten_Tup] using hpos)
      exact ⟨.Tup Qs, by simp [zippedGo, hz], by simpa [flatten_Tup] using hQ⟩
  | .Int _, .Tup _, hc, _ => by simp [congrB] at hc
  | .Tup _, .Int _, hc, _ => by simp [congrB] at hc

theorem zippedList_eq : ∀ ls ts : List Tuple, congrListB ls ts = true →
    (∀ x ∈ flattenList ts, 0 < x) →
    ∃ Qs : List Tuple, zippedList ls ts = some (ts, Qs) ∧
      flattenList Qs = List.zipWith (· / ·) (flattenList ls) (flattenList ts)
  | [], [], _, _ => ⟨[], rfl, rfl⟩
  | l :: ls, t :: ts, hc, hpos => by
      have h' : congrB l t = true ∧ congrListB ls ts = true := by
        simpa [congrListB, Bool.and_eq_true] using hc
      have hposh : ∀ x ∈ t.flatten, 0 < x := fun x hx =>
        hpos x (by simp [flattenList_cons, hx])
      have hpost : ∀ x ∈ flattenList ts, 0 < x := fun x hx =>
        hpos x (by simp [flattenList_cons, hx])
      obtain ⟨Q, hz1, hQ1⟩ := zippedGo_eq l t h'.1 hposh
      obtain ⟨Qs, hz2, hQ2⟩ := zippedList_eq ls ts h'.2 hpost
      refine ⟨Q :: Qs, by simp [zippedList, hz1, hz2], ?_⟩
      simp only [flattenList_cons, hQ1, hQ2]
      rw [List.zipWith_append _ _ _ _ _ (congrB_flatten_length l t h'.1)]
  | [], _ :: _, hc, _ => by simp [congrListB] at hc
  | _ :: _, [], hc, _ => by simp [congrListB] at hc

end

/-- C5 amended: for layouts with congruent shape trees whose tile extents
are all positive (and each layout extent divisible by the matching tile
extent), `flat_divide` produces a layout whose shape is the single flat
leaf sequence of the flattened tiler extents followed by the flattened
integer quotients. -/
theorem C5_flat_divide (lL lT : Layout)
    (hc : congrB lL.shape.dims lT.shape.dims = true)
    (hpos : ∀ t ∈ lT.shape.dims.flatten, 0 < t)
    (hdvd : ∀ i, i < lT.shape.dims.flatten.length →
      lT.shape.dims.flatten.getD i 0 ∣ lL.shape.dims.flatten.getD i 0) :
    ∃ fd : Layout, flat_divide lL lT = some fd ∧
      fd.shape.dims
        = .Int (lT.shape.dims.flatten
            ++ List.zipWith (· / ·) lL.shape.dims.flatten lT.shape.dims.flatten) := by
  clear hdvd
  obtain ⟨Q, hz, hQ⟩ := zippedGo_eq lL.shape.dims lT.shape.dims hc hpos
  have hzd : zipped_divide lL lT
      = some (Layout.new (fun sh => row_major_stride sh.dims)
          ⟨.Tup [lT.shape.dims, Q]⟩) := by
    simp [zipped_divide, hz]
  cases Q with
  | Int r =>
      have htd : tiled_divide lL lT
          = some (Layout.new (fun sh => row_major_stride sh.dims)
              ⟨.Tup [lT.shape.dims, .Int r]⟩) := by
        simp [tiled_divide, hzd, Layout.new]
      have hflat : (Tuple.Tup [lT.shape.dims, .Int r]).flatten
          = lT.shape.dims.flatten
            ++ List.zipWith (· / ·) lL.shape.dims.flatten lT.shape.dims.flatten := by
        have hr : r = List.zipWith (· / ·) lL.shape.dims.flatten lT.shape.dims.flatten := hQ
        simp [flatten_Tup, flattenList_cons, Tuple.flatten, flattenList, hr]
      have hfd : flat_divide lL lT
          = some (Layout.new (fun sh => row_major_stride sh.dims)
              ⟨.Int ((Tuple.Tup [lT.shape.dims, .Int r]).flatten)⟩) := by
        simp [flat_divide, htd, Layout.new]
      refine ⟨_, hfd, ?_⟩
      simp [Layout.new, hflat]
  | Tup r =>
      have htd : tiled_divide lL lT
          = some (Layout.new (fun sh => row_major_stride sh.dims)
              ⟨.Tup (lT.shape.dims :: r)⟩) := by
        simp [tiled_divide, hzd, Layout.new]
      have hflat : (Tuple.Tup (lT.shape.dims :: r)).flatten
          = lT.shape.dims.flatten
            ++ List.zipWith (· / ·) lL.shape.dims.flatten lT.shape.dims.flatten := by
        have hr : flattenList r
            = List.zipWith (· / ·) lL.shape.dims.flatten lT.shape.dims.flatten := hQ
        simp [flatten_Tup, flattenList_cons, hr]
      have hfd : flat_divide lL lT
          = some (Layout.new (fun sh => row_major_stride sh.dims)
              ⟨.Int ((Tuple.Tup (lT.shape.dims :: r)).flatten)⟩) := by
        simp [flat_divide, htd, Layout.new]
      refine ⟨_, hfd, ?_⟩
      simp [Layout.new, hflat]

/-- C5 witness: the nested 8×6 layout divided by the 2×3 tiler flattens to
`(2,3,4,2)`, matching the repository's `test_flat_divide`. -/
theorem C5_flat_divide_witness :
    congrB (Layout.row_major ⟨.Tup [.Int [8], .Int [6]]⟩).shape.dims
        (Layout.row_major ⟨.Tup [.Int [2], .Int [3]]⟩).shape.dims = true ∧
    (∀ t ∈ (Layout.row_major ⟨.Tup [.Int [2], .Int [3]]⟩).shape.dims.flatten, 0 < t) ∧
    (∃ fd : Layout,
      flat_divide (Layout.row_major ⟨.Tup [.Int [8], .Int [6]]⟩)
          (Layout.row_major ⟨.Tup [.Int [2], .Int [3]]⟩) = some fd ∧
      fd.shape.dims = .Int [2, 3, 4, 2]) := by
  refine ⟨by decide, by decide, ?_⟩
  have h := C5_flat_divide (Layout.row_major ⟨.Tup [.Int [8], .Int [6]]⟩)
    (Layout.row_major ⟨.Tup [.Int [2], .Int [3]]⟩) (by decide) (by decide)
    (by decide)
  simpa using h

/-! ### Supporting lemmas for the coordinate maps -/

theorem strideScan_append (a b : List Nat) (acc : Nat) :
    strideScan (a ++ b) acc = strideScan a acc ++ strideScan b (acc * a.prod) := by
  induction a generalizing acc with
  | nil => simp [strideScan]
  | cons s rest ih => simp [strideScan, ih, Nat.mul_assoc]

mutual

theorem Tuple.size_eq_prod : ∀ t : Tuple, t.size = t.flatten.prod
  | .Int _ => rfl
  | .Tup vs => by
      rw [Tuple.size, flatten_Tup, sizeList_eq_prod vs]

theorem sizeList_eq_prod : ∀ ts : List Tuple, sizeList ts = (flattenList ts).prod
  | [] => rfl
  | t :: ts => by
      rw [sizeList, flattenList_cons, List.prod_append,
        Tuple.size_eq_prod t, sizeList_eq_prod ts]

end

mutual

theorem scale_stride_flatten : ∀ (t : Tuple) (f : Nat),
    (scale_stride t f).flatten = t.flatten.map (· * f)
  | .Int _, _ => rfl
  | .Tup vs, f => by
      rw [scale_stride, flatten_Tup, scaleList_flatten vs f, flatten_Tup]

theorem scaleList_flatten : ∀ (ts : List Tuple) (f : Nat),
    flattenList (scaleList ts f) = (flattenList ts).map (· * f)
  | [], _ => rfl
  | t :: ts, f => by
      rw [scaleList, flattenList_cons, flattenList_cons, List.map_append,
        scale_stride_flatten t f, scaleList_flatten ts f]

end

theorem strideScan_mul (l : List Nat) (acc c : Nat) :
    strideScan l (acc * c) = (strideScan l acc).map (· * c) := by
  induction l generalizing acc with
  | nil => rfl
  | cons s rest ih =>
      have : acc * c * s = acc * s * c := by ring
      simp [strideScan, this, ih]

theorem rowMajorFlat_append (a b : List Nat) :
    rowMajorFlat (a ++ b) = (rowMajorFlat a).map (· * b.prod) ++ rowMajorFlat b := by
  have h1 : strideScan a.reverse b.prod = (strideScan a.reverse 1).map (· * b.prod) := by
    have := strideScan_mul a.reverse 1 b.prod
    simpa using this
  simp [rowMajorFlat, strideScan_append, List.prod_reverse, h1]

theorem rowMajorFlat_cons (x : Nat) (xs : List Nat) :
    rowMajorFlat (x :: xs) = xs.prod :: rowMajorFlat xs := by
  have := rowMajorFlat_append [x] xs
  simpa [rowMajorFlat, strideScan] using this

theorem strideScan_length (l : List Nat) (acc : Nat) :
    (strideScan l acc).length = l.length := by
  induction l generalizing acc with
  | nil => rfl
  | cons s rest ih => simp [strideScan, ih]

theorem rowMajorFlat_length (v : List Nat) : (rowMajorFlat v).length = v.length := by
  simp [rowMajorFlat, strideScan_length]

mutual

theorem congrB_scale : ∀ (x y : Tuple) (f : Nat), congrB x y = true →
    congrB x (scale_stride y f) = true
  | .Int v, .Int w, f, h => by
      show (v.length == (w.map (· * f)).length) = true
      simp only [congrB] at h
      simpa using h
  | .Tup v, .Tup w, f, h => by
      show congrListB v (scaleList w f) = true
      exact congrListB_scale v w f (by simpa [congrB] using h)
  | .Int _, .Tup _, _, h => by simp [congrB] at h
  | .Tup _, .Int _, _, h => by simp [congrB] at h

theorem congrListB_scale : ∀ (xs ys : List Tuple) (f : Nat), congrListB xs ys = true →
    congrListB xs (scaleList ys f) = true
  | [], [], _, _ => rfl
  | x :: xs, y :: ys, f, h => by
      have h' : congrB x y = true ∧ congrListB xs ys = true := by
        simpa [congrListB, Bool.and_eq_true] using h
      show (congrB x (scale_stride y f) && congrListB xs (scaleList ys f)) = true
      simp [congrB_scale x y f h'.1, congrListB_scale xs ys f h'.2]
  | [], _ :: _, _, h => by simp [congrListB] at h
  | _ :: _, [], _, h => by simp [congrListB] at h

end

mutual

/-- Flattening a row-major stride tree yields the row-major strides of the
flattened shape. -/
theorem row_major_stride_flatten : ∀ s : Tuple,
    (row_major_stride s).flatten = rowMajorFlat s.flatten
  | .Int _ => rfl
  | .Tup vs => by
      rw [row_major_stride, flatten_Tup, flatten_Tup, rowMajorStrideList_flatten vs]

theorem rowMajorStrideList_flatten : ∀ vs : List Tuple,
    flattenList (rowMajorStrideList vs) = rowMajorFlat (flattenList vs)
  | [] => rfl
  | s :: rest => by
      rw [rowMajorStrideList, flattenList_cons, flattenList_cons,
        scale_stride_flatten, row_major_stride_flatten s,
        rowMajorStrideList_flatten rest, rowMajorFlat_append,
        sizeList_eq_prod]

end

mutual

/-- A shape is congruent with its own row-major stride tree. -/
theorem congrB_row_major : ∀ s : Tuple, congrB s (row_major_stride s) = true
  | .Int v => by
      show (v.length == (rowMajorFlat v).length) = true
      simp [rowMajorFlat_length]
  | .Tup vs => by
      show congrListB vs (rowMajorStrideList vs) = true
      exact congrListB_row_major vs

theorem congrListB_row_major : ∀ vs : List Tuple,
    congrListB vs (rowMajorStrideList vs) = true
  | [] => rfl
  | s :: rest => by
      show (congrB s (scale_stride (row_major_stride s) (sizeList rest))
        && congrListB rest (rowMajorStrideList rest)) = true
      simp [congrB_scale s (row_major_stride s) _ (congrB_row_major s),
        congrListB_row_major rest]

end

mutual

/-- On congruent trees, `dot` succeeds and equals the dot product of the
flattened leaf lists. -/
theorem dot_flatten : ∀ a b : Tuple, congrB a b = true →
    Tuple.dot a b = some ((List.zipWith (· * ·) a.flatten b.flatten).sum)
  | .Int _, .Int _, _ => rfl
  | .Tup v, .Tup w, h => by
      rw [Tuple.dot, flatten_Tup, flatten_Tup]
      exact dotList_flatten v w (by simpa [congrB] using h)
  | .Int _, .Tup _, h => by simp [congrB] at h
  | .Tup _, .Int _, h => by simp [congrB] at h

theorem dotList_flatten : ∀ xs ys : List Tuple, congrListB xs ys = true →
    dotList xs ys
      = some ((List.zipWith (· * ·) (flattenList xs) (flattenList ys)).sum)
  | [], [], _ => rfl
  | x :: xs, y :: ys, h => by
      have h' : congrB x y = true ∧ congrListB xs ys = true := by
        simpa [congrListB, Bool.and_eq_true] using h
      rw [dotList, dot_flatten x y h'.1, dotList_flatten xs ys h'.2,
        flattenList_cons, flattenList_cons,
        List.zipWith_append _ _ _ _ _ (congrB_flatten_length x y h'.1)]
      simp
  | [], _ :: _, h => by simp [congrListB] at h
  | _ :: _, [], h => by simp [congrListB] at h

end

/-- Splitting the leaf decomposition over concatenated (extent, stride)
lists of equal head length. -/
theorem idx2crdLeaf_append :
    ∀ (a b a' b' : List Nat) (idx : Nat) (v : List Nat) (r : Nat),
    a.length = b.length →
    idx2crdLeaf idx (a ++ a') (b ++ b') = some (v, r) →
    ∃ v1 r1 v2, idx2crdLeaf idx a b = some (v1, r1) ∧
      idx2crdLeaf r1 a' b' = some (v2, r) ∧ v = v1 ++ v2
  | [], [], a', b', idx, v, r, _, h => ⟨[], idx, v, rfl, h, rfl⟩
  | x :: xs, y :: ys, a', b', idx, v, r, hlen, h => by
      rw [List.cons_append, List.cons_append, idx2crdLeaf] at h
      by_cases hy : y = 0
      · simp [hy] at h
      · rw [if_neg hy] at h
        by_cases hv : idx / y < x
        · rw [if_pos hv] at h
          obtain ⟨⟨v', r'⟩, hrec, hcons⟩ := Option.map_eq_some'.mp h
          have hveq : v = idx / y :: v' := (Prod.ext_iff.mp hcons).1.symm
          have hreq : r = r' := (Prod.ext_iff.mp hcons).2.symm
          subst hveq
          subst hreq
          obtain ⟨v1, r1, v2, h1, h2, h3⟩ :=
            idx2crdLeaf_append xs ys a' b' (idx - idx / y * y) v' r
              (by simpa using hlen) hrec
          refine ⟨idx / y :: v1, r1, v2, ?_, h2, by simp [h3]⟩
          rw [idx2crdLeaf, if_neg hy, if_pos hv, h1]
          rfl
        · rw [if_neg hv] at h
          exact absurd h (by simp)
  | [], _ :: _, _, _, _, _, _, hlen, _ => by simp at hlen
  | _ :: _, [], _, _, _, _, _, hlen, _ => by simp at hlen

/-- The leaf decomposition over equal-length lists produces one coordinate
per extent. -/
theorem idx2crdLeaf_length :
    ∀ (sizes strides : List Nat) (idx : Nat) (v : List Nat) (r : Nat),
    sizes.length = strides.length →
    idx2crdLeaf idx sizes strides = some (v, r) → v.length = sizes.length
  | [], [], idx, v, r, _, h => by
      obtain ⟨rfl, -⟩ : v = [] ∧ idx = r := by simpa [idx2crdLeaf] using h
      rfl
  | x :: xs, y :: ys, idx, v, r, hlen, h => by
      rw [idx2crdLeaf] at h
      by_cases hy : y = 0
      · simp [hy] at h
      · rw [if_neg hy] at h
        by_cases hv : idx / y < x
        · rw [if_pos hv] at h
          obtain ⟨⟨v', r'⟩, hrec, hcons⟩ := Option.map_eq_some'.mp h
          have hveq : v = idx / y :: v' := (Prod.ext_iff.mp hcons).1.symm
          subst hveq
          have := idx2crdLeaf_length xs ys (idx - idx / y * y) v' r'
            (by simpa using hlen) hrec
          simp [this]
        · rw [if_neg hv] at h
          exact absurd h (by simp)
  | [], _ :: _, _, _, _, hlen, _ => by simp at hlen
  | _ :: _, [], _, _, _, hlen, _ => by simp at hlen

mutual

/-- If the flat leaf decomposition over the flattened shape/stride lists
succeeds, `idx2crd`'s tree worker succeeds with a coordinate tree that
flattens to the same leaf list and is congruent with the stride tree. -/
theorem idx2crdGo_of_leaf : ∀ (s st : Tuple) (idx : Nat) (v : List Nat) (r : Nat),
    congrB s st = true →
    idx2crdLeaf idx s.flatten st.flatten = some (v, r) →
    ∃ c : Tuple, idx2crdGo idx s st = some (c, r) ∧ c.flatten = v ∧
      congrB c st = true
  | .Int sizes, .Int strides, idx, v, r, hc, h => by
      refine ⟨.Int v, ?_, rfl, ?_⟩
      · have h' : idx2crdLeaf idx sizes strides = some (v, r) := h
        rw [idx2crdGo, h']
        rfl
      · show (v.length == strides.length) = true
        have hlen : sizes.length = strides.length := by
          simpa [congrB, Tuple.flatten] using hc
        have hv : v.length = sizes.length :=
          idx2crdLeaf_length sizes strides idx v r hlen h
        simp [hv, hlen]
  | .Tup ss, .Tup sts, idx, v, r, hc, h => by
      obtain ⟨cs, h1, h2, h3⟩ := idx2crdChildren_of_leaf ss sts idx v r
        (by simpa [congrB] using hc) (by simpa [flatten_Tup] using h)
      refine ⟨.Tup cs, ?_, by simpa [flatten_Tup] using h2, ?_⟩
      · rw [idx2crdGo, h1]
        rfl
      · show congrListB cs sts = true
        exact h3
  | .Int _, .Tup _, _, _, _, hc, _ => by simp [congrB] at hc
  | .Tup _, .Int _, _, _, _, hc, _ => by simp [congrB] at hc

theorem idx2crdChildren_of_leaf : ∀ (ss sts : List Tuple) (idx : Nat)
    (v : List Nat) (r : Nat),
    congrListB ss sts = true →
    idx2crdLeaf idx (flattenList ss) (flattenList sts) = some (v, r) →
    ∃ cs : List Tuple, idx2crdChildren idx ss sts = some (cs, r) ∧
      flattenList cs = v ∧ congrListB cs sts = true
  | [], [], idx, v, r, _, h => by
      obtain ⟨rfl, rfl⟩ : v = [] ∧ idx = r := by
        simpa [flattenList, idx2crdLeaf] using h
      exact ⟨[], rfl, rfl, rfl⟩
  | s :: ss, t :: ts, idx, v, r, hc, h => by
      have h' : congrB s t = true ∧ congrListB ss ts = true := by
        simpa [congrListB, Bool.and_eq_true] using hc
      rw [flattenList_cons, flattenList_cons] at h
      obtain ⟨v1, r1, v2, h1, h2, rfl⟩ :=
        idx2crdLeaf_append s.flatten t.flatten (flattenList ss) (flattenList ts)
          idx v r (congrB_flatten_length s t h'.1) h
      obtain ⟨c, hc1, hc2, hc3⟩ := idx2crdGo_of_leaf s t idx v1 r1 h'.1 h1
      obtain ⟨cs, hcs1, hcs2, hcs3⟩ :=
        idx2crdChildren_of_leaf ss ts r1 v2 r h'.2 h2
      refine ⟨c :: cs, ?_, ?_, ?_⟩
      · rw [idx2crdChildren, hc1]
        simp [hcs1]
      · rw [flattenList_cons, hc2, hcs2]
      · show (congrB c t && congrListB cs ts) = true
        simp [hc3, hcs3]
  | [], _ :: _, _, _, _, hc, _ => by simp [congrListB] at hc
  | _ :: _, [], _, _, _, hc, _ => by simp [congrListB] at hc

end

/-- Mixed-radix round trip on flat lists: decomposing a linear index by the
row-major strides succeeds, consumes the index completely, and recombines to
the same index. -/
theorem rowMajorFlat_roundtrip : ∀ (sizes : List Nat) (idx : Nat),
    idx < sizes.prod →
    ∃ v, idx2crdLeaf idx sizes (rowMajorFlat sizes) = some (v, 0) ∧
      (List.zipWith (· * ·) v (rowMajorFlat sizes)).sum = idx := by
  intro sizes
  induction sizes with
  | nil =>
      intro idx h
      have h0 : idx = 0 := by simpa using h
      subst h0
      exact ⟨[], rfl, rfl⟩
  | cons x xs ih =>
      intro idx h
      have h' : idx < x * xs.prod := by simpa using h
      have hp : 0 < xs.prod := by
        rcases Nat.eq_zero_or_pos xs.prod with h0 | h0
        · rw [h0, Nat.mul_zero] at h'
          omega
        · exact h0
      have hp0 : xs.prod ≠ 0 := by omega
      have hv : idx / xs.prod < x := (Nat.div_lt_iff_lt_mul hp).mpr h'
      have hdm : xs.prod * (idx / xs.prod) + idx % xs.prod = idx :=
        Nat.div_add_mod idx xs.prod
      have hdm' : idx / xs.prod * xs.prod + idx % xs.prod = idx := by
        rw [Nat.mul_comm] at hdm
        exact hdm
      have hrem : idx - idx / xs.prod * xs.prod = idx % xs.prod := by omega
      have hmod : idx % xs.prod < xs.prod := Nat.mod_lt idx hp
      obtain ⟨v', hv1, hv2⟩ := ih (idx % xs.prod) hmod
      refine ⟨idx / xs.prod :: v', ?_, ?_⟩
      · rw [rowMajorFlat_cons, idx2crdLeaf, if_neg hp0]
        simp only [if_pos hv, hrem, hv1, Option.map_some']
      · rw [rowMajorFlat_cons]
        simp only [List.zipWith_cons_cons, List.sum_cons, hv2]
        omega

/-- C2: for every row-major layout over any shape tree with positive extents
and every linear index `i < size()`, `idx2crd` succeeds and
`crd2idx(idx2crd(i)) == i`. -/
theorem C2_row_major_roundtrip (s : Tuple) (i : Nat)
    (hpos : ∀ x ∈ s.flatten, 0 < x) (hi : i < (Layout.row_major ⟨s⟩).size) :
    ∃ c, (Layout.row_major ⟨s⟩).idx2crd i = some c ∧
      (Layout.row_major ⟨s⟩).crd2idx c = some i := by
  clear hpos
  have hi' : i < s.flatten.prod := by
    have h0 : i < Tuple.size s := hi
    rwa [Tuple.size_eq_prod] at h0
  obtain ⟨v, hleaf, hsum⟩ := rowMajorFlat_roundtrip s.flatten i hi'
  have hleaf' : idx2crdLeaf i s.flatten (row_major_stride s).flatten = some (v, 0) := by
    rw [row_major_stride_flatten]
    exact hleaf
  obtain ⟨c, hgo, hflat, hcongr⟩ :=
    idx2crdGo_of_leaf s (row_major_stride s) i v 0 (congrB_row_major s) hleaf'
  refine ⟨c, ?_, ?_⟩
  · show (idx2crdGo i s (row_major_stride s)).map Prod.fst = some c
    rw [hgo]
    rfl
  · show Tuple.dot c (row_major_stride s) = some i
    rw [dot_flatten c (row_major_stride s) hcongr, hflat,
      row_major_stride_flatten, hsum]

/-- C2 witness: the nested shape `(2,(3,4))` with `i = 17` round-trips. -/
theorem C2_row_major_roundtrip_witness :
    (∀ x ∈ (Tuple.Tup [.Int [2], .Tup [.Int [3], .Int [4]]]).flatten, 0 < x) ∧
    17 < (Layout.row_major ⟨.Tup [.Int [2], .Tup [.Int [3], .Int [4]]]⟩).size ∧
    ∃ c, (Layout.row_major ⟨.Tup [.Int [2], .Tup [.Int [3], .Int [4]]]⟩).idx2crd 17
          = some c ∧
      (Layout.row_major ⟨.Tup [.Int [2], .Tup [.Int [3], .Int [4]]]⟩).crd2idx c
          = some 17 :=
  ⟨by decide, by decide,
    C2_row_major_roundtrip (.Tup [.Int [2], .Tup [.Int [3], .Int [4]]]) 17
      (by decide) (by decide)⟩

/-! ### Supporting lemmas for the ragged tile iterator -/

/-- One step of the 2-D ragged iterator from a live state. -/
theorem TileIter.next_state (tm tn M N i j : Nat) :
    TileIter.next ⟨[tm, tn], [M, N], [i, j], false⟩
      = some (⟨[i, j], [min tm (M - i), min tn (N - j)]⟩,
          if j + tn < N then ⟨[tm, tn], [M, N], [i, j + tn], false⟩
          else if i + tm < M then ⟨[tm, tn], [M, N], [i + tm, 0], false⟩
          else ⟨[tm, tn], [M, N], [0, 0], true⟩) := by
  by_cases h1 : j + tn < N
  · simp [TileIter.next, clipLens, tileAdvance, h1]
  · by_cases h2 : i + tm < M <;> simp [TileIter.next, clipLens, tileAdvance, h1, h2]

/-- An exhausted iterator yields nothing, whatever the fuel. -/
theorem TileIter.run_done (ts fs cur : List Nat) (fuel : Nat) :
    TileIter.run ⟨ts, fs, cur, true⟩ fuel = [] := by
  cases fuel <;> simp [TileIter.run, TileIter.next]

/-- Unfold one `run` step through a successful `next`. -/
theorem TileIter.run_succ_of_next (it : TileIter) (fuel : Nat) (t : Tile)
    (it' : TileIter) (h : it.next = some (t, it')) :
    it.run (fuel + 1) = t :: it'.run fuel := by
  rw [TileIter.run, h]

theorem lt_gridDim_iff (e t b : Nat) (ht : 0 < t) (he : 0 < e) :
    b < gridDim e t ↔ t * b < e := by
  unfold gridDim
  rw [Nat.lt_succ_iff, Nat.le_div_iff_mul_le ht, Nat.mul_comm]
  omega

theorem gridDim_le (e t : Nat) : gridDim e t ≤ e - 1 + 1 := by
  unfold gridDim
  exact Nat.add_le_add_right (Nat.div_le_self _ _) 1

/-- The tiles the 2-D ragged iterator yields from the live state at grid
position `(a, b)`: the rest of row `a`, then all later rows. -/
theorem TileIter.run_from (tm tn M N : Nat) (htm : 0 < tm) (htn : 0 < tn)
    (hM : 0 < M) (hN : 0 < N) :
    ∀ (fuel a b : Nat), a < gridDim M tm → b < gridDim N tn →
    gridDim N tn - b + (gridDim M tm - (a + 1)) * gridDim N tn ≤ fuel →
    TileIter.run ⟨[tm, tn], [M, N], [tm * a, tn * b], false⟩ fuel
      = (List.range' b (gridDim N tn - b)).map (fun b' => tileAt tm tn M N a b')
        ++ (List.range' (a + 1) (gridDim M tm - (a + 1))).flatMap
            (fun a' => (List.range (gridDim N tn)).map (fun b' => tileAt tm tn M N a' b')) := by
  intro fuel
  induction fuel with
  | zero =>
      intro a b ha hb hfuel
      exfalso
      obtain ⟨P, hP⟩ : ∃ P, (gridDim M tm - (a + 1)) * gridDim N tn = P := ⟨_, rfl⟩
      rw [hP] at hfuel
      omega
  | succ fuel ih =>
      intro a b ha hb hfuel
      have hcond1 : (tn * b + tn < N) ↔ b + 1 < gridDim N tn := by
        rw [lt_gridDim_iff N tn (b + 1) htn hN, Nat.mul_succ]
      by_cases h1 : b + 1 < gridDim N tn
      · have hnext : TileIter.next ⟨[tm, tn], [M, N], [tm * a, tn * b], false⟩
            = some (tileAt tm tn M N a b,
                ⟨[tm, tn], [M, N], [tm * a, tn * (b + 1)], false⟩) := by
          rw [TileIter.next_state, if_pos (hcond1.mpr h1), Nat.mul_succ]
          rfl
        rw [TileIter.run_succ_of_next _ fuel _ _ hnext]
        have hrec := ih a (b + 1) ha h1 (by
          obtain ⟨P, hP⟩ : ∃ P, (gridDim M tm - (a + 1)) * gridDim N tn = P := ⟨_, rfl⟩
          rw [hP] at hfuel ⊢
          omega)
        rw [hrec]
        have hCb : gridDim N tn - b = (gridDim N tn - (b + 1)) + 1 := by omega
        rw [hCb, List.range'_succ]
        simp
      · have hb1 : b + 1 = gridDim N tn := by omega
        have hCb : gridDim N tn - b = 1 := by omega
        have hcond2 : (tm * a + tm < M) ↔ a + 1 < gridDim M tm := by
          rw [lt_gridDim_iff M tm (a + 1) htm hM, Nat.mul_succ]
        by_cases h2 : a + 1 < gridDim M tm
        · have hnext : TileIter.next ⟨[tm, tn], [M, N], [tm * a, tn * b], false⟩
              = some (tileAt tm tn M N a b,
                  ⟨[tm, tn], [M, N], [tm * (a + 1), tn * 0], false⟩) := by
            rw [TileIter.next_state, if_neg (fun h => h1 (hcond1.mp h)),
              if_pos (hcond2.mpr h2), Nat.mul_succ, Nat.mul_zero]
            rfl
          rw [TileIter.run_succ_of_next _ fuel _ _ hnext]
          have hmul : (gridDim M tm - (a + 1)) * gridDim N tn
              = gridDim N tn + (gridDim M tm - (a + 2)) * gridDim N tn := by
            have hstep : gridDim M tm - (a + 1) = (gridDim M tm - (a + 2)) + 1 := by
              omega
            rw [hstep, Nat.succ_mul]
            omega
          have hrec := ih (a + 1) 0 h2 (by omega) (by
            obtain ⟨P, hP⟩ : ∃ P, (gridDim M tm - (a + 2)) * gridDim N tn = P := ⟨_, rfl⟩
            rw [hP] at hmul
            rw [hP]
            omega)
          rw [hrec]
          have hRa : gridDim M tm - (a + 1) = (gridDim M tm - (a + 2)) + 1 := by omega
          rw [hCb, hRa, List.range'_succ (a + 1), List.flatMap_cons]
          simp [List.range_eq_range']
        · have hnext : TileIter.next ⟨[tm, tn], [M, N], [tm * a, tn * b], false⟩
              = some (tileAt tm tn M N a b, ⟨[tm, tn], [M, N], [0, 0], true⟩) := by
            rw [TileIter.next_state, if_neg (fun h => h1 (hcond1.mp h)),
              if_neg (fun h => h2 (hcond2.mp h))]
            rfl
          rw [TileIter.run_succ_of_next _ fuel _ _ hnext, TileIter.run_done]
          have hRa : gridDim M tm - (a + 1) = 0 := by omega
          rw [hCb, hRa]
          simp

/-- The complete tile list yielded by the 2-D ragged iterator: one tile per
grid cell `(a, b)`, `a < ⌈M/tm⌉`, `b < ⌈N/tn⌉`, in row-major order. -/
theorem TileIter.run_full (tm tn M N : Nat) (htm : 0 < tm) (htn : 0 < tn)
    (hM : 0 < M) (hN : 0 < N) (fuel : Nat) (hfuel : M * N ≤ fuel) :
    (TileIter.new [tm, tn] [M, N]).run fuel
      = (List.range (gridDim M tm)).flatMap
          (fun a => (List.range (gridDim N tn)).map (fun b => tileAt tm tn M N a b)) := by
  have hR : 0 < gridDim M tm := Nat.succ_pos _
  have hC : 0 < gridDim N tn := Nat.succ_pos _
  have hRM : gridDim M tm ≤ M := by
    have := gridDim_le M tm
    omega
  have hCN : gridDim N tn ≤ N := by
    have := gridDim_le N tn
    omega
  have hprod : gridDim M tm * gridDim N tn ≤ M * N := Nat.mul_le_mul hRM hCN
  have hstate : TileIter.new [tm, tn] [M, N]
      = ⟨[tm, tn], [M, N], [tm * 0, tn * 0], false⟩ := by
    simp [TileIter.new, List.replicate]
  rw [hstate]
  have hfuel' : gridDim N tn - 0 + (gridDim M tm - (0 + 1)) * gridDim N tn ≤ fuel := by
    have hmul : gridDim M tm * gridDim N tn
        = gridDim N tn + (gridDim M tm - 1) * gridDim N tn := by
      have hsplit : gridDim M tm = (gridDim M tm - 1) + 1 := by omega
      conv_lhs => rw [hsplit]
      rw [Nat.succ_mul]
      omega
    obtain ⟨P, hP⟩ : ∃ P, (gridDim M tm - 1) * gridDim N tn = P := ⟨_, rfl⟩
    rw [hP] at hmul
    simp only [Nat.sub_zero, Nat.zero_add, hP]
    omega
  rw [TileIter.run_from tm tn M N htm htn hM hN fuel 0 0 hR hC hfuel']
  have hsplitR : gridDim M tm = (gridDim M tm - 1) + 1 := by omega
  conv_rhs => rw [hsplitR, List.range_eq_range', List.range'_succ, List.flatMap_cons]
  simp [List.range_eq_range']

/-- Membership of an in-range cell in the tile at grid position `(a, b)`
holds exactly for the cell's own grid position. -/
theorem tileAt_mem2 (tm tn M N a b x y : Nat) (htm : 0 < tm) (htn : 0 < tn)
    (hx : x < M) (hy : y < N) :
    (tileAt tm tn M N a b).mem2 x y = true ↔ (a = x / tm ∧ b = y / tn) := by
  have hdim : ∀ t e s z : Nat, 0 < t → z < e →
      ((t * s ≤ z ∧ z < t * s + min t (e - t * s)) ↔ s = z / t) := by
    intro t e s z ht hz
    have hA : t * (z / t) ≤ z := by
      have := Nat.div_add_mod z t
      omega
    have hB : z < t * (z / t) + t := by
      have h1 := Nat.div_add_mod z t
      have h2 := Nat.mod_lt z ht
      omega
    constructor
    · rintro ⟨h1, h2⟩
      have h2' : z < t * s + t := by
        have := Nat.min_le_left t (e - t * s)
        omega
      have : z / t = s := by
        refine Nat.div_eq_of_lt_le ?_ ?_
        · rw [Nat.mul_comm]
          exact h1
        · rw [Nat.succ_mul, Nat.mul_comm]
          exact h2'
      omega
    · rintro rfl
      refine ⟨hA, ?_⟩
      rcases Nat.le_total t (e - t * (z / t)) with hmin | hmin
      · rw [Nat.min_eq_left hmin]
        exact hB
      · rw [Nat.min_eq_right hmin]
        omega
  show ((decide (tm * a ≤ x) && decide (x < tm * a + min tm (M - tm * a)) &&
      decide (tn * b ≤ y) && decide (y < tn * b + min tn (N - tn * b))) = true)
    ↔ (a = x / tm ∧ b = y / tn)
  rw [Bool.and_eq_true, Bool.and_eq_true, Bool.and_eq_true,
    decide_eq_true_iff, decide_eq_true_iff, decide_eq_true_iff, decide_eq_true_iff]
  constructor
  · rintro ⟨⟨⟨h1, h2⟩, h3⟩, h4⟩
    exact ⟨(hdim tm M a x htm hx).mp ⟨h1, h2⟩, (hdim tn N b y htn hy).mp ⟨h3, h4⟩⟩
  · rintro ⟨ha, hb⟩
    obtain ⟨h1, h2⟩ := (hdim tm M a x htm hx).mpr ha
    obtain ⟨h3, h4⟩ := (hdim tn N b y htn hy).mpr hb
    exact ⟨⟨⟨h1, h2⟩, h3⟩, h4⟩

/-- A cell inside a yielded tile's box lies inside the full `(M, N)` grid. -/
theorem tileAt_mem2_bounds (tm tn M N a b x y : Nat)
    (ha : tm * a < M) (hb : tn * b < N)
    (h : (tileAt tm tn M N a b).mem2 x y = true) : x < M ∧ y < N := by
  have h' : (tm * a ≤ x ∧ x < tm * a + min tm (M - tm * a)) ∧
      (tn * b ≤ y ∧ y < tn * b + min tn (N - tn * b)) := by
    have := h
    rw [show (tileAt tm tn M N a b).mem2 x y
        = (decide (tm * a ≤ x) && decide (x < tm * a + min tm (M - tm * a)) &&
           decide (tn * b ≤ y) && decide (y < tn * b + min tn (N - tn * b))) from rfl,
      Bool.and_eq_true, Bool.and_eq_true, Bool.and_eq_true,
      decide_eq_true_iff, decide_eq_true_iff, decide_eq_true_iff,
      decide_eq_true_iff] at this
    exact ⟨⟨this.1.1.1, this.1.1.2⟩, ⟨this.1.2, this.2⟩⟩
  have hx := h'.1.2
  have hy := h'.2.2
  have hmx := Nat.min_le_right tm (M - tm * a)
  have hmy := Nat.min_le_right tn (N - tn * b)
  omega

theorem countP_flatMap_tiles (f : Nat → List Tile) (l : List Nat) (p : Tile → Bool) :
    (l.flatMap f).countP p = (l.map (fun a => (f a).countP p)).sum := by
  induction l with
  | nil => rfl
  | cons a l ih => simp [List.flatMap_cons, List.countP_append, ih]

theorem sum_map_ite_range (n k : Nat) :
    ((List.range n).map (fun a => if a = k then 1 else 0)).sum
      = if k < n then 1 else 0 := by
  induction n with
  | zero => simp
  | succ n ih =>
      rw [List.range_succ]
      simp only [List.map_append, List.sum_append, ih]
      by_cases hk : k < n
      · have hnk : n ≠ k := by omega
        simp [hk, hnk, Nat.lt_succ_of_lt hk]
      · by_cases hk' : k = n
        · simp [hk', hk]
        · have : ¬ k < n + 1 := by omega
          simp [hk, hk', this]
          omega

theorem countP_range_eq (n k : Nat) :
    (List.range n).countP (fun b => decide (b = k)) = if k < n then 1 else 0 := by
  induction n with
  | zero => simp
  | succ n ih =>
      rw [List.range_succ, List.countP_append, ih]
      by_cases hk : k < n
      · have hnk : n ≠ k := by omega
        simp [hk, hnk, Nat.lt_succ_of_lt hk, List.countP_cons]
      · by_cases hk' : k = n
        · simp [hk', hk, List.countP_cons]
        · have hn1 : ¬ k < n + 1 := by omega
          have hnk : ¬ n = k := by omega
          simp [hk, hk', hn1, hnk, List.countP_cons]

theorem pairwise_disjoint_of_countP (l : List Tile)
    (h : ∀ x y, l.countP (fun t => t.mem2 x y) ≤ 1) :
    List.Pairwise (fun t1 t2 => ∀ x y,
      ¬(t1.mem2 x y = true ∧ t2.mem2 x y = true)) l := by
  induction l with
  | nil => exact List.Pairwise.nil
  | cons t l ih =>
      refine List.Pairwise.cons ?_ (ih fun x y => ?_)
      · intro t' ht' x y hc
        have hcount := h x y
        rw [List.countP_cons] at hcount
        have h1 : 0 < l.countP (fun t => t.mem2 x y) :=
          List.countP_pos_iff.mpr ⟨t', ht', hc.2⟩
        have hif : (if (fun t => t.mem2 x y) t then 1 else 0) = 1 := by
          simp [hc.1]
        rw [hif] at hcount
        omega
      · have hcount := h x y
        rw [List.countP_cons] at hcount
        omega

/-- C1: the ragged tile-descriptor iterator seeded with tile shape
`(tm, tn)` and full shape `(M, N)` (all ≥ 1, any fuel ≥ M*N) yields tiles
that (i) cover every cell of `[0,M)×[0,N)` exactly once, (ii) are each the
min-clipped tile at an in-range grid position, (iii) have boxes whose union
is exactly `[0,M)×[0,N)`, and (iv) are pairwise disjoint in index space. -/
theorem C1_ragged_tile_cover (M N tm tn : Nat) (hM : 0 < M) (hN : 0 < N)
    (htm : 0 < tm) (htn : 0 < tn) (fuel : Nat) (hfuel : M * N ≤ fuel) :
    (∀ x y, x < M → y < N →
      ((TileIter.new [tm, tn] [M, N]).run fuel).countP (fun t => t.mem2 x y) = 1) ∧
    (∀ t ∈ (TileIter.new [tm, tn] [M, N]).run fuel, ∃ a b,
      t = tileAt tm tn M N a b ∧ tm * a < M ∧ tn * b < N) ∧
    (∀ x y, (∃ t ∈ (TileIter.new [tm, tn] [M, N]).run fuel, t.mem2 x y = true)
      ↔ (x < M ∧ y < N)) ∧
    List.Pairwise (fun t1 t2 => ∀ x y,
      ¬(t1.mem2 x y = true ∧ t2.mem2 x y = true))
      ((TileIter.new [tm, tn] [M, N]).run fuel) := by
  rw [TileIter.run_full tm tn M N htm htn hM hN fuel hfuel]
  set E := (List.range (gridDim M tm)).flatMap
    (fun a => (List.range (gridDim N tn)).map (fun b => tileAt tm tn M N a b)) with hE
  have hdiv_lt : ∀ (z e t : Nat), 0 < t → z < e → t * (z / t) < e := by
    intro z e t ht hz
    have := Nat.div_add_mod z t
    omega
  have hgrid : ∀ (z e t : Nat), 0 < t → 0 < e → z < e → z / t < gridDim e t := by
    intro z e t ht he hz
    rw [lt_gridDim_iff e t _ ht he]
    exact hdiv_lt z e t ht hz
  have hcell : ∀ x y, x < M → y < N → E.countP (fun t => t.mem2 x y) = 1 := by
    intro x y hx hy
    rw [hE, countP_flatMap_tiles]
    have hrow : ∀ a,
        ((List.range (gridDim N tn)).map (fun b => tileAt tm tn M N a b)).countP
          (fun t => t.mem2 x y) = if a = x / tm then 1 else 0 := by
      intro a
      rw [List.countP_map]
      by_cases ha : a = x / tm
      · rw [if_pos ha]
        have hpt : ∀ b ∈ List.range (gridDim N tn),
            ((fun t => t.mem2 x y) ∘ fun b => tileAt tm tn M N a b) b = true
              ↔ (fun b => decide (b = y / tn)) b = true := by
          intro b _
          simp only [Function.comp]
          rw [tileAt_mem2 tm tn M N a b x y htm htn hx hy]
          constructor
          · rintro ⟨-, hb⟩
            simpa using hb
          · intro hb
            exact ⟨ha, by simpa using hb⟩
        rw [List.countP_congr hpt, countP_range_eq,
          if_pos (hgrid y N tn htn hN hy)]
      · rw [if_neg ha]
        refine List.countP_eq_zero.mpr ?_
        intro b _ hmem
        exact ha ((tileAt_mem2 tm tn M N a b x y htm htn hx hy).mp hmem).1
    rw [List.map_congr_left (fun a _ => hrow a), sum_map_ite_range,
      if_pos (hgrid x M tm htm hM hx)]
  have hmemE : ∀ t ∈ E, ∃ a b,
      t = tileAt tm tn M N a b ∧ tm * a < M ∧ tn * b < N := by
    intro t ht
    rw [hE, List.mem_flatMap] at ht
    obtain ⟨a, ha, ht⟩ := ht
    rw [List.mem_map] at ht
    obtain ⟨b, hb, rfl⟩ := ht
    rw [List.mem_range] at ha hb
    exact ⟨a, b, rfl, (lt_gridDim_iff M tm a htm hM).mp ha,
      (lt_gridDim_iff N tn b htn hN).mp hb⟩
  have hcover : ∀ x y, (∃ t ∈ E, t.mem2 x y = true) ↔ (x < M ∧ y < N) := by
    intro x y
    constructor
    · rintro ⟨t, ht, hmem⟩
      obtain ⟨a, b, rfl, ha, hb⟩ := hmemE t ht
      exact tileAt_mem2_bounds tm tn M N a b x y ha hb hmem
    · rintro ⟨hx, hy⟩
      refine ⟨tileAt tm tn M N (x / tm) (y / tn), ?_, ?_⟩
      · rw [hE, List.mem_flatMap]
        exact ⟨x / tm, List.mem_range.mpr (hgrid x M tm htm hM hx),
          List.mem_map.mpr ⟨y / tn, List.mem_range.mpr (hgrid y N tn htn hN hy), rfl⟩⟩
      · exact (tileAt_mem2 tm tn M N (x / tm) (y / tn) x y htm htn hx hy).mpr ⟨rfl, rfl⟩
  refine ⟨hcell, hmemE, hcover, ?_⟩
  refine pairwise_disjoint_of_countP E ?_
  intro x y
  by_cases hxy : x < M ∧ y < N
  · rw [hcell x y hxy.1 hxy.2]
  · have hz : E.countP (fun t => t.mem2 x y) = 0 := by
      refine List.countP_eq_zero.mpr ?_
      intro t ht hmem
      obtain ⟨a, b, rfl, ha, hb⟩ := hmemE t ht
      exact hxy (tileAt_mem2_bounds tm tn M N a b x y ha hb hmem)
    omega

/-- C1 witness: the 8×6 grid with tile shape `(3, 4)` and fuel 48. -/
theorem C1_ragged_tile_cover_witness :
    (0 : Nat) < 8 ∧ (0 : Nat) < 6 ∧ (0 : Nat) < 3 ∧ (0 : Nat) < 4 ∧
    (8 : Nat) * 6 ≤ 48 ∧
    ((∀ x y, x < 8 → y < 6 →
      ((TileIter.new [3, 4] [8, 6]).run 48).countP (fun t => t.mem2 x y) = 1) ∧
    (∀ t ∈ (TileIter.new [3, 4] [8, 6]).run 48, ∃ a b,
      t = tileAt 3 4 8 6 a b ∧ 3 * a < 8 ∧ 4 * b < 6) ∧
    (∀ x y, (∃ t ∈ (TileIter.new [3, 4] [8, 6]).run 48, t.mem2 x y = true)
      ↔ (x < 8 ∧ y < 6)) ∧
    List.Pairwise (fun t1 t2 => ∀ x y,
      ¬(t1.mem2 x y = true ∧ t2.mem2 x y = true))
      ((TileIter.new [3, 4] [8, 6]).run 48)) :=
  ⟨by decide, by decide, by decide, by decide, by decide,
    C1_ragged_tile_cover 8 6 3 4 (by decide) (by decide) (by decide) (by decide)
      48 (by decide)⟩

/-! ### Supporting lemmas for the contiguity walk -/

theorem rowMajorFlat_reverse (p : List Nat) :
    (rowMajorFlat p).reverse = strideScan p.reverse 1 := by
  simp [rowMajorFlat]

theorem getD_reverse (l : List Nat) (i : Nat) (h : i < l.length) :
    l.reverse.getD i 0 = l.getD (l.length - 1 - i) 0 := by
  rw [List.getD_eq_getElem l.reverse 0 (by simpa using h),
      List.getD_eq_getElem l 0 (by omega)]
  exact List.getElem_reverse ..

/-- The contiguity walk over a reversed row-major stride list (`strideScan`)
reports `false` as soon as some extent other than the last of the reversed
lists (i.e. other than the outermost) is strictly smaller in the walked
shape than in the shape that generated the strides. -/
theorem contigGo_strideScan_false :
    ∀ (pr : List Nat) (qr : List Nat) (acc : Nat), 0 < acc →
    (∀ x ∈ pr, 0 < x) →
    qr.length = pr.length →
    (∀ i, i < pr.length → qr.getD i 0 ≤ pr.getD i 0) →
    (∃ k, k + 1 < pr.length ∧ qr.getD k 0 < pr.getD k 0) →
    contigGo (strideScan pr acc) qr acc = some false
  | [], _, _, _, _, _, _, hwit => by
      obtain ⟨k, hk, _⟩ := hwit
      simp at hk
  | p :: pr', [], _, _, _, hlen, _, _ => by simp at hlen
  | p :: pr', q :: qr', acc, hacc, hpos, hlen, hle, hwit => by
      have hstep : contigGo (strideScan (p :: pr') acc) (q :: qr') acc
          = contigGo (strideScan pr' (acc * p)) qr' (acc * q) := by
        simp [strideScan, contigGo]
      rw [hstep]
      by_cases hq : q = p
      · subst hq
        have hp : 0 < q := hpos q (by simp)
        obtain ⟨k, hk1, hk2⟩ := hwit
        have hk0 : k ≠ 0 := by
          intro h
          subst h
          simp [List.getD_cons_zero] at hk2
        obtain ⟨k', rfl⟩ := Nat.exists_eq_succ_of_ne_zero hk0
        exact contigGo_strideScan_false pr' qr' (acc * q) (by positivity)
          (fun x hx => hpos x (by simp [hx]))
          (by simpa using hlen)
          (fun i hi => by simpa [List.getD_cons_succ] using hle (i + 1) (by simpa using hi))
          ⟨k', by simpa using hk1, by simpa [List.getD_cons_succ] using hk2⟩
      · have hqlt : q < p := by
          have := hle 0 (by simp)
          simp [List.getD_cons_zero] at this
          omega
        obtain ⟨k, hk1, _⟩ := hwit
        have hne : pr' ≠ [] := by
          intro h
          subst h
          simp at hk1
        obtain ⟨p₂, pr'', rfl⟩ := List.exists_cons_of_ne_nil hne
        have hlt : acc * q < acc * p := (Nat.mul_lt_mul_left hacc).mpr hqlt
        simp [strideScan, contigGo]
        omega

/-- C8 amended: a row-major layout always reports contiguous; a sub-view
layout built via `with_shape_stride` from the row-major stride tree of a
strictly larger flat parent shape reports `is_contiguous() == false`
whenever some extent other than the outermost is strictly smaller than the
parent's. -/
theorem C8_subview_contiguity (p q : List Nat)
    (hpos : ∀ x ∈ p, 0 < x) (hlen : q.length = p.length)
    (hle : ∀ i, i < p.length → q.getD i 0 ≤ p.getD i 0)
    (hj : ∃ j, 1 ≤ j ∧ j < p.length ∧ q.getD j 0 < p.getD j 0) :
    (∀ s : Shape, (Layout.row_major s).is_contiguous = true) ∧
    is_layout_contig ⟨.Int q⟩ (row_major_stride (.Int p)) = some false ∧
    (Layout.with_shape_stride ⟨.Int q⟩ (row_major_stride (.Int p))).map
      Layout.is_contiguous = some false := by
  have hcontig : is_layout_contig ⟨.Int q⟩ (row_major_stride (.Int p)) = some false := by
    show contigGo (rowMajorFlat p).reverse q.reverse 1 = some false
    rw [rowMajorFlat_reverse]
    apply contigGo_strideScan_false p.reverse q.reverse 1 (by omega)
      (fun x hx => hpos x (List.mem_reverse.mp hx)) (by simpa using hlen)
    · intro i hi
      have hi' : i < p.length := by simpa using hi
      rw [getD_reverse p i hi', getD_reverse q i (by omega)]
      have := hle (p.length - 1 - i) (by omega)
      simpa [hlen] using this
    · obtain ⟨j, hj1, hj2, hj3⟩ := hj
      refine ⟨p.length - 1 - j, ?_, ?_⟩
      · simpa using (show p.length - 1 - j + 1 < p.length by omega)
      · rw [getD_reverse p (p.length - 1 - j) (by omega),
            getD_reverse q (p.length - 1 - j) (by omega)]
        have h1 : p.length - 1 - (p.length - 1 - j) = j := by omega
        have h2 : q.length - 1 - (p.length - 1 - j) = j := by omega
        rw [h1, h2]
        exact hj3
  refine ⟨fun _ => rfl, hcontig, ?_⟩
  simp [Layout.with_shape_stride, hcontig, Layout.is_contiguous]

/-- C8 witness: the sub-view shape `(4,2)` of a 4×4 row-major parent (inner
extent strictly smaller, inherited stride tree `(4,1)`) reports
`is_contiguous() == false`. -/
theorem C8_subview_contiguity_witness :
    (∀ x ∈ [4, 4], 0 < x) ∧
    (∃ j, 1 ≤ j ∧ j < [(4 : Nat), 4].length ∧
      [(4 : Nat), 2].getD j 0 < [(4 : Nat), 4].getD j 0) ∧
    (Layout.with_shape_stride ⟨.Int [4, 2]⟩ (row_major_stride (.Int [4, 4]))).map
      Layout.is_contiguous = some false := by
  refine ⟨by decide, ⟨1, by omega, by decide, by decide⟩, ?_⟩
  exact (C8_subview_contiguity [4, 4] [4, 2] (by decide) rfl
    (by decide) ⟨1, by omega, by decide, by decide⟩).2.2

/-- C5 counterexample: for the congruent shapes `(0)` and `(0)` every layout
extent is (vacuously) divisible by the matching tile extent, yet
`flat_divide` produces no layout at all — the integer division `0 / 0`
panics in Rust. -/
theorem C5_counterexample :
    congrB (.Int [0]) (.Int [0]) = true ∧
    (∀ i, i < (Tuple.Int [0]).flatten.length →
      (Tuple.Int [0]).flatten.getD i 0 ∣ (Tuple.Int [0]).flatten.getD i 0) ∧
    flat_divide (Layout.row_major ⟨.Int [0]⟩) (Layout.row_major ⟨.Int [0]⟩) = none :=
  ⟨rfl, fun i _ => dvd_refl _, rfl⟩

end Rutile
